import Mathlib

/-!
Verification development for the batch 480p video converter (`convert.py`).

The Python source is shallowly embedded: pure helpers become Lean
functions; the filesystem and the external ffmpeg/ffprobe processes are
modelled by an explicit state (`FSState`) and per-task oracles
(`TaskEnv`) supplying, for each subprocess invocation, the event
observed by `run_cmd` (exit, interrupt, or spawn failure) and whether
the invocation left a file at its output path.  `convert_one` and the
driver loop of `main` are embedded as state-passing functions over
these oracles, recording a trace of attempted invocations.
-/

/-- Module-level constant `CRF = 18` from convert.py. -/
def CRF : Nat := 18

/-- Module-level constant `PRESET = "medium"` from convert.py. -/
def PRESET : String := "medium"

/-- Module-level constant `TUNE_ANIMATION = True` from convert.py. -/
def TUNE_ANIMATION : Bool := true

/-- Module-level constant `LEVEL = "3.0"` from convert.py. -/
def LEVEL : String := "3.0"

/-- Module-level constant `OVERWRITE = False` from convert.py. -/
def OVERWRITE : Bool := false

/-- Module-level constant `SKIP_IF_ALREADY_480P = True` from convert.py. -/
def SKIP_IF_ALREADY_480P : Bool := true

/-- Module-level constant `COPY_ATTACHMENTS = True` from convert.py. -/
def COPY_ATTACHMENTS : Bool := true

/-- Module-level constant `MAX_MUXING_QUEUE_SIZE = "4096"` from convert.py. -/
def MAX_MUXING_QUEUE_SIZE : String := "4096"

/-- The video-stream metadata dictionary returned by ffprobe for the first
video stream: `width`, `height`, `pix_fmt`, `codec_name`, each possibly
absent (`info.get(...)` returning `None`).  The empty dictionary is the
profile with all four fields absent. -/
structure StreamInfo where
  width : Option Int
  height : Option Int
  pix_fmt : Option String
  codec_name : Option String
deriving DecidableEq

/-- The empty stream profile `{}` (all fields absent). -/
def emptyInfo : StreamInfo := ⟨none, none, none, none⟩

/-- Substring containment on character lists: Python's `needle in hay`.
Recurses over the haystack, checking a prefix match at every position. -/
def subOf (needle : List Char) : List Char → Bool
  | [] => needle.isEmpty
  | c :: rest => needle.isPrefixOf (c :: rest) || subOf needle rest

/-- Python's `needle in hay` on strings. -/
def strContains (hay needle : String) : Bool :=
  subOf needle.data hay.data

/-- Python's `str.lower()`: lower-case every character. -/
def strLower (s : String) : String :=
  ⟨s.data.map Char.toLower⟩

/-- Embedding of `already_satisfies_480p` (convert.py lines 90-97):
width and height present and at most 854 and 480, lower-cased codec name
contains "h264", lower-cased pixel format is yuv420p or yuvj420p.
The Python guard `if not info: return False` (empty dict) is subsumed by
the `width is not None` test: an all-absent profile falls into the
catch-all arm. -/
def already_satisfies_480p (info : StreamInfo) : Bool :=
  match info.width, info.height with
  | some w, some h =>
      decide (w ≤ 854) && decide (h ≤ 480) &&
      strContains (strLower (info.codec_name.getD "")) "h264" &&
      (strLower (info.pix_fmt.getD "") == "yuv420p" ||
        strLower (info.pix_fmt.getD "") == "yuvj420p")
  | _, _ => false

/-- Raw outcome of the ffprobe subprocess plus JSON parse inside
`ffprobe_info`, before the try/except shaping: the tool may be missing or
exit nonzero (`check_output` raises), its output may fail to parse
(`json.loads` raises), or parsing succeeds and yields the (possibly
empty) `streams` list. -/
inductive ProbeRaw
  | toolFailure
  | badOutput
  | parsed (streams : List StreamInfo)
deriving DecidableEq

/-- Embedding of `ffprobe_info` (convert.py lines 80-88): every raising
path is caught and mapped to the empty dict `{}`; a parsed but empty
`streams` list also yields `{}`; otherwise the first stream is returned.
Totality of this function is the embedding of "never throws". -/
def ffprobe_info : ProbeRaw → StreamInfo
  | .toolFailure => emptyInfo
  | .badOutput => emptyInfo
  | .parsed streams => streams.headD emptyInfo

/-- A probe observation on which `ffprobe_info` has no stream data to
return: raising paths, and parses with no video stream. -/
def probeFailed : ProbeRaw → Bool
  | .toolFailure => true
  | .badOutput => true
  | .parsed streams => streams.isEmpty

/-- Paths are modelled as their `pathlib` part lists.  A file path is its
list of components, the last component being the file name. -/
abbrev PathParts := List String

/-- Embedding of `in_file.relative_to(in_root)`: succeeds with the
remaining components when the root's components are a prefix of the
file's, and models the `ValueError` raise as `none` otherwise. -/
def relative_to : PathParts → PathParts → Option PathParts
  | file, [] => some file
  | [], _ :: _ => none
  | f :: fs, r :: rs => if f = r then relative_to fs rs else none

/-- Index of the last '.' in a character list, if any. -/
def lastDotIdx (cs : List Char) : Option Nat :=
  ((List.range cs.length).filter fun i => cs.getD i ' ' == '.').getLast?

/-- Embedding of `pathlib.PurePath.stem` on a file name: the name with
its final extension removed, where an extension starts at the last '.'
provided that dot is neither the first nor the last character. -/
def pathStem (name : String) : String :=
  match lastDotIdx name.data with
  | some i => if 0 < i ∧ i + 1 < name.data.length then ⟨name.data.take i⟩ else name
  | none => name

/-- Python's `base.endswith(sfx)` on strings. -/
def strEndsWith (base sfx : String) : Bool :=
  sfx.data.isSuffixOf base.data

/-- Embedding of `base_with_suffix` (convert.py lines 71-72): append the
suffix only when the base does not already end with it. -/
def base_with_suffix (base sfx : String) : String :=
  if strEndsWith base sfx then base else base ++ sfx

/-- The filesystem as the per-run state the converter mutates: output
files present, directories created, and temp files currently present in
the process temp directory (temp names are plain strings because the
temp directory is a single flat namespace). -/
structure FSState where
  files : List PathParts
  dirs : List PathParts
  temps : List String
deriving DecidableEq

/-- Embedding of `make_output_path` (convert.py lines 74-78).  Besides
computing `<out_root>/<in_root.name>/<rel.parent>/<stem>_480p.mkv` it
performs `out_dir.mkdir(parents=True, exist_ok=True)`, recorded here by
consing the directory onto the state's `dirs`; the `none` result models
the `ValueError` from `relative_to`. -/
def make_output_path (in_file in_root out_root : PathParts) (fs : FSState) :
    Option (PathParts × FSState) :=
  match relative_to in_file in_root with
  | none => none
  | some rel =>
      some ((out_root ++ [in_root.getLastD ""] ++ rel.dropLast) ++
              [base_with_suffix (pathStem (rel.getLastD "")) "_480p" ++ ".mkv"],
            { fs with dirs := (out_root ++ [in_root.getLastD ""] ++ rel.dropLast) :: fs.dirs })

/-- What `run_cmd` observes while waiting on the spawned process: a
normal exit with a code, a `KeyboardInterrupt` delivered during the
wait, or any other exception (e.g. the spawn itself failing). -/
inductive RunEvent
  | exited (rc : Int)
  | interrupted
  | spawnError
deriving DecidableEq

/-- Embedding of `run_cmd` (convert.py lines 144-158): the exit code is
returned as-is; a `KeyboardInterrupt` terminates the child and returns
130; any other exception returns 1. -/
def runCmd : RunEvent → Int
  | .exited rc => rc
  | .interrupted => 130
  | .spawnError => 1

/-- Per-task oracle for the external world: the stream of fresh temp
names drawn from `uuid.uuid4()`, and for each successive subprocess
invocation the event `run_cmd` observes together with whether the
invocation left a file at its output path (ffmpeg may leave a partial
file on failure; on success it always leaves the output). -/
structure TaskEnv where
  temps : Nat → String
  runs : Nat → RunEvent × Bool
  probe : ProbeRaw

/-- One subprocess invocation writing to temp path `t`, consuming run
oracle index `k`: returns the `run_cmd` result and the state after the
process ends (the temp file exists when the process succeeded or left a
partial file). -/
def doRun (env : TaskEnv) (k : Nat) (t : String) (fs : FSState) : Int × FSState :=
  if runCmd (env.runs k).1 = 0 ∨ (env.runs k).2 = true then
    (runCmd (env.runs k).1, { fs with temps := t :: fs.temps })
  else (runCmd (env.runs k).1, fs)

/-- Embedding of `if temp_name.exists(): temp_name.unlink()`. -/
def unlinkTemp (t : String) (fs : FSState) : FSState :=
  { fs with temps := fs.temps.erase t }

/-- Embedding of `shutil.move(str(temp_name), out_file)`: the temp file
disappears and the destination appears. -/
def moveTemp (t : String) (dst : PathParts) (fs : FSState) : FSState :=
  { fs with temps := fs.temps.erase t, files := dst :: fs.files }

/-- The kind of a recorded invocation: the audio-only remux, the
hardware-accelerated encode, or the plain software encode. -/
inductive AttemptKind
  | remux
  | encodeHW
  | encodeSW
deriving DecidableEq

/-- One recorded engine invocation: its kind, the temp path it wrote to,
and the `run_cmd` result it produced. -/
structure Attempt where
  kind : AttemptKind
  temp : String
  rc : Int
deriving DecidableEq

/-- Task outcome as returned by `convert_one` ("exists-skip",
"remuxed-audio-converted", "encoded", `f"error({rc})"`). -/
inductive Outcome
  | existsSkip
  | remuxed
  | encoded
  | error (rc : Int)
deriving DecidableEq

/-- The full-encode block of `convert_one` (convert.py lines 189-208):
one fresh temp path is allocated (oracle index `n`); with a detected
hwaccel the accelerated encode runs first and, on a nonzero result, the
temp is unlinked and the software encode reruns into the same temp
path (the Python code reuses `temp_name`); without hwaccel only the
software encode runs.  The final `rc` decides promotion or deletion. -/
def encodePhase (cfg : Option String) (env : TaskEnv) (n : Nat) (out_file : PathParts)
    (fs : FSState) : Outcome × FSState × List Attempt :=
  match cfg with
  | some _ =>
      match doRun env n (env.temps n) fs with
      | (rc, fs1) =>
          if rc ≠ 0 then
            match doRun env (n + 1) (env.temps n) (unlinkTemp (env.temps n) fs1) with
            | (rc2, fs2) =>
                if rc2 = 0 then
                  (.encoded, moveTemp (env.temps n) out_file fs2,
                    [⟨.encodeHW, env.temps n, rc⟩, ⟨.encodeSW, env.temps n, rc2⟩])
                else
                  (.error rc2, unlinkTemp (env.temps n) fs2,
                    [⟨.encodeHW, env.temps n, rc⟩, ⟨.encodeSW, env.temps n, rc2⟩])
          else (.encoded, moveTemp (env.temps n) out_file fs1, [⟨.encodeHW, env.temps n, rc⟩])
  | none =>
      match doRun env n (env.temps n) fs with
      | (rc, fs1) =>
          if rc = 0 then
            (.encoded, moveTemp (env.temps n) out_file fs1, [⟨.encodeSW, env.temps n, rc⟩])
          else (.error rc, unlinkTemp (env.temps n) fs1, [⟨.encodeSW, env.temps n, rc⟩])

/-- Process-wide configuration read by `convert_one`: the `OVERWRITE`
and `SKIP_IF_ALREADY_480P` module constants and the hwaccel detected
once at startup (`HWACCEL = detect_hwaccel()`). -/
structure Config where
  overwrite : Bool
  skipIfAlready480p : Bool
  hwaccel : Option String
deriving DecidableEq

/-- Embedding of `convert_one` (convert.py lines 160-208).  The output
path is computed (creating its directory); an existing destination with
overwrite disabled short-circuits to `existsSkip` with no invocation;
otherwise, when the skip toggle is on and the probed profile is
compliant, a remux into a fresh temp is attempted and promoted on
success; on remux failure the temp is unlinked and control falls
through to the full-encode block, which allocates the next fresh temp. -/
def convert_one (cfg : Config) (env : TaskEnv) (in_root in_file out_root : PathParts)
    (fs : FSState) : Option (Outcome × FSState × List Attempt) :=
  match make_output_path in_file in_root out_root fs with
  | none => none
  | some (out_file, fs0) =>
      if out_file ∈ fs0.files ∧ cfg.overwrite = false then
        some (.existsSkip, fs0, [])
      else if cfg.skipIfAlready480p = true ∧
          already_satisfies_480p (ffprobe_info env.probe) = true then
        match doRun env 0 (env.temps 0) fs0 with
        | (rc, fs1) =>
            if rc = 0 then
              some (.remuxed, moveTemp (env.temps 0) out_file fs1, [⟨.remux, env.temps 0, rc⟩])
            else
              match encodePhase cfg.hwaccel env 1 out_file (unlinkTemp (env.temps 0) fs1) with
              | (out, fs3, tr) => some (out, fs3, ⟨.remux, env.temps 0, rc⟩ :: tr)
      else
        match encodePhase cfg.hwaccel env 0 out_file fs0 with
        | (out, fs3, tr) => some (out, fs3, tr)

/-- One task of the batch: a discovered (root, file) pair. -/
structure VTask where
  in_root : PathParts
  in_file : PathParts
deriving DecidableEq

/-- Per-task ledger entry of the driver loop in `main`: the outcome and
trace of its `convert_one` call, or `exc` when the call raised (caught
by the loop's `except Exception`, which counts an error and continues). -/
inductive BatchEntry
  | done (o : Outcome) (tr : List Attempt)
  | exc
deriving DecidableEq

/-- Embedding of the driver loop of `main` (convert.py lines 220-241):
tasks are processed strictly in order against the threaded filesystem
state, each with its own oracle; outcomes are only tallied. -/
def run_batch (cfg : Config) (envs : Nat → TaskEnv) (out_root : PathParts) :
    List VTask → FSState → FSState × List BatchEntry
  | [], fs => (fs, [])
  | t :: ts, fs =>
      match convert_one cfg (envs 0) t.in_root t.in_file out_root fs with
      | none =>
          match run_batch cfg (fun n => envs (n + 1)) out_root ts fs with
          | (fs2, rest) => (fs2, .exc :: rest)
      | some (o, fs1, tr) =>
          match run_batch cfg (fun n => envs (n + 1)) out_root ts fs1 with
          | (fs2, rest) => (fs2, .done o tr :: rest)

/-- The `-vf` filter string of `build_ffmpeg_command` (convert.py line
124), verbatim (the Python literal's `\\,` denotes a backslash-escaped
comma inside the filter argument). -/
def vf_chain : String :=
  "scale=trunc(iw*min(854/iw\\,480/ih)/2)*2:trunc(ih*min(854/iw\\,480/ih)/2)*2,setsar=1"

/-- Embedding of `build_ffmpeg_command` (convert.py lines 122-142). -/
def build_ffmpeg_command (in_file out_file : String) (hwaccel : Option String) :
    List String :=
  ["ffmpeg", "-hide_banner", "-loglevel", "error", "-stats"] ++
  (match hwaccel with | some h => ["-hwaccel", h] | none => []) ++
  ["-i", in_file, "-map", "0", "-map_metadata", "0", "-map_chapters", "0"] ++
  ["-c:v", "libx264", "-profile:v", "baseline", "-level:v", LEVEL, "-pix_fmt", "yuv420p",
    "-vf", vf_chain, "-preset", PRESET, "-crf", toString CRF] ++
  (if TUNE_ANIMATION = true then ["-tune", "animation"] else []) ++
  ["-c:a", "aac", "-b:a", "160k", "-ac", "2"] ++
  ["-c:s", "copy"] ++
  (if COPY_ATTACHMENTS = true then ["-c:t", "copy"] else []) ++
  ["-max_muxing_queue_size", MAX_MUXING_QUEUE_SIZE, "-threads", "0",
    if OVERWRITE = true then "-y" else "-n", out_file]

/-- Abstract syntax of the arithmetic expressions ffmpeg evaluates
inside the `scale` filter: numerals, the input-dimension variables,
multiplication, division, binary `min`, and `trunc`. -/
inductive FExpr
  | num (n : Nat)
  | var (v : String)
  | mul (a b : FExpr)
  | div (a b : FExpr)
  | emin (a b : FExpr)
  | ftrunc (a : FExpr)

/-- Truncation toward zero on rationals, as ffmpeg's `trunc`. -/
def truncQ (q : ℚ) : ℤ :=
  if q < 0 then ⌈q⌉ else ⌊q⌋

/-- Evaluation of a filter expression with `iw`, `ih` bound to the input
width and height, over exact rational arithmetic. -/
def FExpr.eval (iw ih : ℚ) : FExpr → ℚ
  | .num n => n
  | .var v => if v == "iw" then iw else if v == "ih" then ih else 0
  | .mul a b => a.eval iw ih * b.eval iw ih
  | .div a b => a.eval iw ih / b.eval iw ih
  | .emin a b => min (a.eval iw ih) (b.eval iw ih)
  | .ftrunc a => (truncQ (a.eval iw ih) : ℚ)

/-- Rendering of a filter expression back to ffmpeg's concrete syntax,
with the comma of `min` escaped as it must be inside a `-vf` value. -/
def FExpr.render : FExpr → String
  | .num n => toString n
  | .var v => v
  | .mul a b => a.render ++ "*" ++ b.render
  | .div a b => a.render ++ "/" ++ b.render
  | .emin a b => "min(" ++ a.render ++ "\\," ++ b.render ++ ")"
  | .ftrunc a => "trunc(" ++ a.render ++ ")"

/-- The shared scale factor subexpression `min(854/iw,480/ih)`. -/
def exprScale : FExpr :=
  .emin (.div (.num 854) (.var "iw")) (.div (.num 480) (.var "ih"))

/-- The output-width expression `trunc(iw*min(854/iw,480/ih)/2)*2`. -/
def exprW : FExpr :=
  .mul (.ftrunc (.div (.mul (.var "iw") exprScale) (.num 2))) (.num 2)

/-- The output-height expression `trunc(ih*min(854/iw,480/ih)/2)*2`. -/
def exprH : FExpr :=
  .mul (.ftrunc (.div (.mul (.var "ih") exprScale) (.num 2))) (.num 2)

/-- The aspect-preserving scale factor `min(854/iw, 480/ih)` as a
rational function of the probed dimensions. -/
def scaleQ (w h : ℚ) : ℚ := min (854 / w) (480 / h)

/-- The possible invocation traces of the full-encode block writing to
temp path `t`: a single software encode (no hwaccel), a successful
hardware encode, or a failed hardware encode followed by the software
fallback on the same temp path. -/
def EncTrace (hw : Option String) (t : String) (tr : List Attempt) : Prop :=
  (∃ rc, tr = [⟨.encodeSW, t, rc⟩] ∧ hw = none) ∨
  tr = [⟨.encodeHW, t, 0⟩] ∨
  (∃ rc1 rc2, rc1 ≠ 0 ∧ tr = [⟨.encodeHW, t, rc1⟩, ⟨.encodeSW, t, rc2⟩])

/-- When the trace starts with a failed remux, the number of encode
invocations that follow it; `none` otherwise. -/
def encodesAfterFailedRemux (tr : List Attempt) : Option Nat :=
  match tr with
  | a :: rest =>
      if a.kind = .remux ∧ a.rc ≠ 0 then
        some ((rest.filter fun b =>
          decide (b.kind = .encodeHW) || decide (b.kind = .encodeSW)).length)
      else none
  | [] => none

/-- Whether some attempt in the trace failed and a later attempt reused
its temp path. -/
def tempReused : List Attempt → Bool
  | [] => false
  | a :: rest =>
      (decide (a.rc ≠ 0) && rest.any fun b => a.temp == b.temp) || tempReused rest

/-- Number of attempts of a given kind in a trace. -/
def countKind (k : AttemptKind) (tr : List Attempt) : Nat :=
  (tr.filter fun a => decide (a.kind = k)).length

/-- The compliance condition exactly as the specification words it:
width and height both present and within the 854-by-480 target bounds,
the (case-normalized) codec name contains "h264", and the
(case-normalized) pixel format is one of the accepted 4:2:0 variants;
a missing field makes the corresponding conjunct unsatisfiable. -/
def spec_compliant (info : StreamInfo) : Prop :=
  (∃ w, info.width = some w ∧ w ≤ 854) ∧
  (∃ h, info.height = some h ∧ h ≤ 480) ∧
  (∃ c, info.codec_name = some c ∧ strContains (strLower c) "h264" = true) ∧
  (∃ p, info.pix_fmt = some p ∧ (strLower p = "yuv420p" ∨ strLower p = "yuvj420p"))

/-! ### Helper lemmas about the embedded operations -/

theorem make_output_path_spec {in_file in_root out_root : PathParts} {fs : FSState}
    {p : PathParts} {fs0 : FSState}
    (h : make_output_path in_file in_root out_root fs = some (p, fs0)) :
    fs0.temps = fs.temps ∧ fs0.files = fs.files ∧
    ∃ rel, relative_to in_file in_root = some rel ∧
      fs0.dirs = (out_root ++ [in_root.getLastD ""] ++ rel.dropLast) :: fs.dirs ∧
      p = (out_root ++ [in_root.getLastD ""] ++ rel.dropLast) ++
            [base_with_suffix (pathStem (rel.getLastD "")) "_480p" ++ ".mkv"] := by
  unfold make_output_path at h
  cases hrel : relative_to in_file in_root with
  | none => rw [hrel] at h; cases h
  | some rel =>
      rw [hrel] at h
      simp only [Option.some.injEq, Prod.mk.injEq] at h
      obtain ⟨hp, hfs⟩ := h
      subst hp; subst hfs
      exact ⟨rfl, rfl, rel, rfl, rfl, rfl⟩

theorem make_output_path_fst (in_file in_root out_root : PathParts) (fs fs' : FSState) :
    (make_output_path in_file in_root out_root fs).map Prod.fst =
      (make_output_path in_file in_root out_root fs').map Prod.fst := by
  unfold make_output_path
  cases relative_to in_file in_root <;> simp

theorem doRun_spec {env : TaskEnv} {k : Nat} {t : String} {fs : FSState}
    {rc : Int} {fs1 : FSState} (h : doRun env k t fs = (rc, fs1)) :
    fs1.files = fs.files ∧ fs1.dirs = fs.dirs ∧
    (fs1.temps = t :: fs.temps ∨ fs1.temps = fs.temps) ∧
    (rc = 0 → fs1.temps = t :: fs.temps) := by
  unfold doRun at h
  by_cases hc : runCmd (env.runs k).1 = 0 ∨ (env.runs k).2 = true
  · rw [if_pos hc] at h
    simp only [Prod.mk.injEq] at h
    obtain ⟨hrc, hfs⟩ := h
    subst hrc; subst hfs
    exact ⟨rfl, rfl, Or.inl rfl, fun _ => rfl⟩
  · rw [if_neg hc] at h
    simp only [Prod.mk.injEq] at h
    obtain ⟨hrc, hfs⟩ := h
    subst hrc; subst hfs
    exact ⟨rfl, rfl, Or.inr rfl, fun h0 => absurd (Or.inl h0) hc⟩

theorem encodePhase_spec {hw : Option String} {env : TaskEnv} {n : Nat}
    {dst : PathParts} {fs : FSState} {out : Outcome} {fs' : FSState} {tr : List Attempt}
    (ht : env.temps n ∉ fs.temps)
    (h : encodePhase hw env n dst fs = (out, fs', tr)) :
    fs'.temps = fs.temps ∧ fs'.dirs = fs.dirs ∧
    ((out = .encoded ∧ fs'.files = dst :: fs.files) ∨
      (∃ rc, rc ≠ 0 ∧ out = .error rc ∧ fs'.files = fs.files)) ∧
    EncTrace hw (env.temps n) tr := by
  cases hw with
  | none =>
      simp only [encodePhase] at h
      rcases hdo : doRun env n (env.temps n) fs with ⟨rc, fs1⟩
      rw [hdo] at h
      dsimp only at h
      obtain ⟨df, dd, dt, dz⟩ := doRun_spec hdo
      by_cases hrc : rc = 0
      · rw [if_pos hrc] at h
        simp only [Prod.mk.injEq] at h
        obtain ⟨ho, hfs, htr⟩ := h
        subst ho; subst hfs; subst htr
        refine ⟨?_, ?_, Or.inl ⟨rfl, ?_⟩, Or.inl ⟨rc, rfl, rfl⟩⟩
        · simp [moveTemp, dz hrc, List.erase_cons_head]
        · simp [moveTemp, dd]
        · simp [moveTemp, df]
      · rw [if_neg hrc] at h
        simp only [Prod.mk.injEq] at h
        obtain ⟨ho, hfs, htr⟩ := h
        subst ho; subst hfs; subst htr
        refine ⟨?_, ?_, Or.inr ⟨rc, hrc, rfl, ?_⟩, Or.inl ⟨rc, rfl, rfl⟩⟩
        · rcases dt with h1 | h1 <;> simp [unlinkTemp, h1, List.erase_cons_head, List.erase_of_not_mem ht]
        · simp [unlinkTemp, dd]
        · simp [unlinkTemp, df]
  | some hwa =>
      simp only [encodePhase] at h
      rcases hdo : doRun env n (env.temps n) fs with ⟨rc, fs1⟩
      rw [hdo] at h
      dsimp only at h
      obtain ⟨df, dd, dt, dz⟩ := doRun_spec hdo
      by_cases hrc : rc ≠ 0
      · rw [if_pos hrc] at h
        have ht2 : env.temps n ∉ (unlinkTemp (env.temps n) fs1).temps := by
          rcases dt with h1 | h1 <;>
            simp [unlinkTemp, h1, List.erase_cons_head, List.erase_of_not_mem ht, ht]
        have hut : (unlinkTemp (env.temps n) fs1).temps = fs.temps := by
          rcases dt with h1 | h1 <;>
            simp [unlinkTemp, h1, List.erase_cons_head, List.erase_of_not_mem ht]
        rcases hdo2 : doRun env (n+1) (env.temps n) (unlinkTemp (env.temps n) fs1) with ⟨rc2, fs2⟩
        rw [hdo2] at h
        dsimp only at h
        obtain ⟨df2, dd2, dt2, dz2⟩ := doRun_spec hdo2
        by_cases hrc2 : rc2 = 0
        · rw [if_pos hrc2] at h
          simp only [Prod.mk.injEq] at h
          obtain ⟨ho, hfs, htr⟩ := h
          subst ho; subst hfs; subst htr
          refine ⟨?_, ?_, Or.inl ⟨rfl, ?_⟩, Or.inr (Or.inr ⟨rc, rc2, hrc, rfl⟩)⟩
          · simp [moveTemp, dz2 hrc2, hut, List.erase_cons_head]
          · simp [moveTemp, dd2, unlinkTemp, dd]
          · simp [moveTemp, df2, unlinkTemp, df]
        · rw [if_neg hrc2] at h
          simp only [Prod.mk.injEq] at h
          obtain ⟨ho, hfs, htr⟩ := h
          subst ho; subst hfs; subst htr
          have hut2 : fs1.temps.erase (env.temps n) = fs.temps := hut
          refine ⟨?_, ?_, Or.inr ⟨rc2, hrc2, rfl, ?_⟩, Or.inr (Or.inr ⟨rc, rc2, hrc, rfl⟩)⟩
          · rcases dt2 with h1 | h1
            · simp [unlinkTemp, h1, List.erase_cons_head, hut2]
            · simp [unlinkTemp, h1, hut2, List.erase_of_not_mem ht]
          · simp [unlinkTemp, dd2, dd]
          · simp [unlinkTemp, df2, df]
      · rw [if_neg hrc] at h
        push_neg at hrc
        simp only [Prod.mk.injEq] at h
        obtain ⟨ho, hfs, htr⟩ := h
        subst ho; subst hfs; subst htr
        refine ⟨?_, ?_, Or.inl ⟨rfl, ?_⟩, Or.inr (Or.inl (by rw [hrc]))⟩
        · simp [moveTemp, dz hrc, List.erase_cons_head]
        · simp [moveTemp, dd]
        · simp [moveTemp, df]

theorem convert_one_spec {cfg : Config} {env : TaskEnv} {in_root in_file out_root : PathParts}
    {fs : FSState} {out_file : PathParts} {fs0 : FSState} {out : Outcome} {fs' : FSState}
    {tr : List Attempt}
    (h0 : env.temps 0 ∉ fs.temps) (h1 : env.temps 1 ∉ fs.temps)
    (hmk : make_output_path in_file in_root out_root fs = some (out_file, fs0))
    (hres : convert_one cfg env in_root in_file out_root fs = some (out, fs', tr)) :
    (out = .existsSkip ∧ out_file ∈ fs0.files ∧ cfg.overwrite = false ∧ fs' = fs0 ∧ tr = []) ∨
    (¬(out_file ∈ fs0.files ∧ cfg.overwrite = false) ∧ fs'.temps = fs.temps ∧ fs'.dirs = fs0.dirs ∧
      ((out = .remuxed ∧ tr = [⟨.remux, env.temps 0, 0⟩] ∧ fs'.files = out_file :: fs0.files) ∨
       (∃ rc0 tre, rc0 ≠ 0 ∧ tr = ⟨.remux, env.temps 0, rc0⟩ :: tre ∧
         EncTrace cfg.hwaccel (env.temps 1) tre ∧
         ((out = .encoded ∧ fs'.files = out_file :: fs0.files) ∨
           (∃ rc, rc ≠ 0 ∧ out = .error rc ∧ fs'.files = fs0.files))) ∨
       (EncTrace cfg.hwaccel (env.temps 0) tr ∧
         ((out = .encoded ∧ fs'.files = out_file :: fs0.files) ∨
           (∃ rc, rc ≠ 0 ∧ out = .error rc ∧ fs'.files = fs0.files))))) := by
  obtain ⟨mT, mF, rel, hrel, mD, mP⟩ := make_output_path_spec hmk
  unfold convert_one at hres
  rw [hmk] at hres
  dsimp only at hres
  by_cases hskip : out_file ∈ fs0.files ∧ cfg.overwrite = false
  · rw [if_pos hskip] at hres
    simp only [Option.some.injEq, Prod.mk.injEq] at hres
    obtain ⟨ho, hfs, htr⟩ := hres
    exact Or.inl ⟨ho.symm, hskip.1, hskip.2, hfs.symm, htr.symm⟩
  · rw [if_neg hskip] at hres
    by_cases hcomp : cfg.skipIfAlready480p = true ∧
        already_satisfies_480p (ffprobe_info env.probe) = true
    · rw [if_pos hcomp] at hres
      rcases hdo : doRun env 0 (env.temps 0) fs0 with ⟨rc, fs1⟩
      rw [hdo] at hres
      dsimp only at hres
      obtain ⟨df, dd, dt, dz⟩ := doRun_spec hdo
      by_cases hrc : rc = 0
      · rw [if_pos hrc] at hres
        simp only [Option.some.injEq, Prod.mk.injEq] at hres
        obtain ⟨ho, hfs, htr⟩ := hres
        refine Or.inr ⟨hskip, ?_, ?_, Or.inl ⟨ho.symm, by rw [← htr, hrc], ?_⟩⟩
        · rw [← hfs]; rw [hrc] at dz
          simp [moveTemp, dz rfl, List.erase_cons_head, mT]
        · rw [← hfs]; simp [moveTemp, dd]
        · rw [← hfs]; simp [moveTemp, df]
      · rw [if_neg hrc] at hres
        have hu0 : env.temps 0 ∉ fs0.temps := mT ▸ h0
        have hut : (unlinkTemp (env.temps 0) fs1).temps = fs0.temps := by
          rcases dt with hx | hx <;>
            simp [unlinkTemp, hx, List.erase_cons_head, List.erase_of_not_mem hu0]
        have hu1 : env.temps 1 ∉ (unlinkTemp (env.temps 0) fs1).temps := by
          rw [hut, mT]; exact h1
        rcases hep : encodePhase cfg.hwaccel env 1 out_file (unlinkTemp (env.temps 0) fs1)
          with ⟨out2, fs3, tr2⟩
        rw [hep] at hres
        dsimp only at hres
        simp only [Option.some.injEq, Prod.mk.injEq] at hres
        obtain ⟨ho, hfs, htr⟩ := hres
        obtain ⟨eT, eD, eF, eTr⟩ := encodePhase_spec hu1 hep
        refine Or.inr ⟨hskip, ?_, ?_, Or.inr (Or.inl ⟨rc, tr2, hrc, htr.symm, eTr, ?_⟩)⟩
        · rw [← hfs, eT, hut, mT]
        · rw [← hfs, eD]
          rcases dt with hx | hx <;> simp [unlinkTemp, dd]
        · rcases eF with ⟨he, hf⟩ | ⟨rcx, hx, he, hf⟩
          · exact Or.inl ⟨ho ▸ he, by rw [← hfs, hf]; simp [unlinkTemp, df]⟩
          · exact Or.inr ⟨rcx, hx, ho ▸ he, by rw [← hfs, hf]; simp [unlinkTemp, df]⟩
    · rw [if_neg hcomp] at hres
      have hu0 : env.temps 0 ∉ fs0.temps := mT ▸ h0
      rcases hep : encodePhase cfg.hwaccel env 0 out_file fs0 with ⟨out2, fs3, tr2⟩
      rw [hep] at hres
      dsimp only at hres
      simp only [Option.some.injEq, Prod.mk.injEq] at hres
      obtain ⟨ho, hfs, htr⟩ := hres
      obtain ⟨eT, eD, eF, eTr⟩ := encodePhase_spec hu0 hep
      refine Or.inr ⟨hskip, ?_, ?_, Or.inr (Or.inr ⟨htr ▸ eTr, ?_⟩)⟩
      · rw [← hfs, eT, mT]
      · rw [← hfs, eD]
      · rcases eF with ⟨he, hf⟩ | ⟨rcx, hx, he, hf⟩
        · exact Or.inl ⟨ho ▸ he, by rw [← hfs, hf]⟩
        · exact Or.inr ⟨rcx, hx, ho ▸ he, by rw [← hfs, hf]⟩

theorem encodePhase_files {hw : Option String} {env : TaskEnv} {n : Nat} {dst : PathParts}
    {fs : FSState} {out : Outcome} {fs' : FSState} {tr : List Attempt}
    (h : encodePhase hw env n dst fs = (out, fs', tr)) :
    (out = .encoded ∧ fs'.files = dst :: fs.files) ∨
      (∃ rc, out = .error rc ∧ fs'.files = fs.files) := by
  cases hw with
  | none =>
      simp only [encodePhase] at h
      rcases hdo : doRun env n (env.temps n) fs with ⟨rc, fs1⟩
      rw [hdo] at h; dsimp only at h
      have df := (doRun_spec hdo).1
      by_cases hrc : rc = 0
      · rw [if_pos hrc] at h
        simp only [Prod.mk.injEq] at h
        obtain ⟨ho, hfs, _⟩ := h
        exact Or.inl ⟨ho.symm, by rw [← hfs]; simp [moveTemp, df]⟩
      · rw [if_neg hrc] at h
        simp only [Prod.mk.injEq] at h
        obtain ⟨ho, hfs, _⟩ := h
        exact Or.inr ⟨rc, ho.symm, by rw [← hfs]; simp [unlinkTemp, df]⟩
  | some hwa =>
      simp only [encodePhase] at h
      rcases hdo : doRun env n (env.temps n) fs with ⟨rc, fs1⟩
      rw [hdo] at h; dsimp only at h
      have df := (doRun_spec hdo).1
      by_cases hrc : rc ≠ 0
      · rw [if_pos hrc] at h
        rcases hdo2 : doRun env (n + 1) (env.temps n) (unlinkTemp (env.temps n) fs1)
          with ⟨rc2, fs2⟩
        rw [hdo2] at h; dsimp only at h
        have df2 := (doRun_spec hdo2).1
        by_cases hrc2 : rc2 = 0
        · rw [if_pos hrc2] at h
          simp only [Prod.mk.injEq] at h
          obtain ⟨ho, hfs, _⟩ := h
          exact Or.inl ⟨ho.symm, by rw [← hfs]; simp [moveTemp, df2, unlinkTemp, df]⟩
        · rw [if_neg hrc2] at h
          simp only [Prod.mk.injEq] at h
          obtain ⟨ho, hfs, _⟩ := h
          exact Or.inr ⟨rc2, ho.symm, by rw [← hfs]; simp [unlinkTemp, df2, df]⟩
      · rw [if_neg hrc] at h
        simp only [Prod.mk.injEq] at h
        obtain ⟨ho, hfs, _⟩ := h
        exact Or.inl ⟨ho.symm, by rw [← hfs]; simp [moveTemp, df]⟩

theorem convert_one_files {cfg : Config} {env : TaskEnv} {in_root in_file out_root : PathParts}
    {fs : FSState} {out_file : PathParts} {fs0 : FSState} {out : Outcome} {fs' : FSState}
    {tr : List Attempt}
    (hmk : make_output_path in_file in_root out_root fs = some (out_file, fs0))
    (hres : convert_one cfg env in_root in_file out_root fs = some (out, fs', tr)) :
    ((out = .remuxed ∨ out = .encoded) → fs'.files = out_file :: fs.files) ∧
    (fs'.files = fs.files ∨ fs'.files = out_file :: fs.files) := by
  have mF := (make_output_path_spec hmk).2.1
  unfold convert_one at hres
  rw [hmk] at hres
  dsimp only at hres
  by_cases hskip : out_file ∈ fs0.files ∧ cfg.overwrite = false
  · rw [if_pos hskip] at hres
    simp only [Option.some.injEq, Prod.mk.injEq] at hres
    obtain ⟨ho, hfs, _⟩ := hres
    refine ⟨fun hc => ?_, Or.inl (by rw [← hfs, mF])⟩
    rcases hc with hc | hc <;> rw [← ho] at hc <;> cases hc
  · rw [if_neg hskip] at hres
    by_cases hcomp : cfg.skipIfAlready480p = true ∧
        already_satisfies_480p (ffprobe_info env.probe) = true
    · rw [if_pos hcomp] at hres
      rcases hdo : doRun env 0 (env.temps 0) fs0 with ⟨rc, fs1⟩
      rw [hdo] at hres; dsimp only at hres
      have df := (doRun_spec hdo).1
      by_cases hrc : rc = 0
      · rw [if_pos hrc] at hres
        simp only [Option.some.injEq, Prod.mk.injEq] at hres
        obtain ⟨ho, hfs, _⟩ := hres
        have : fs'.files = out_file :: fs.files := by
          rw [← hfs]; simp [moveTemp, df, mF]
        exact ⟨fun _ => this, Or.inr this⟩
      · rw [if_neg hrc] at hres
        rcases hep : encodePhase cfg.hwaccel env 1 out_file (unlinkTemp (env.temps 0) fs1)
          with ⟨out2, fs3, tr2⟩
        rw [hep] at hres; dsimp only at hres
        simp only [Option.some.injEq, Prod.mk.injEq] at hres
        obtain ⟨ho, hfs, _⟩ := hres
        have huf : (unlinkTemp (env.temps 0) fs1).files = fs.files := by
          simp [unlinkTemp, df, mF]
        rcases encodePhase_files hep with ⟨he, hf⟩ | ⟨rcx, he, hf⟩
        · have : fs'.files = out_file :: fs.files := by rw [← hfs, hf, huf]
          exact ⟨fun _ => this, Or.inr this⟩
        · refine ⟨fun hc => ?_, Or.inl (by rw [← hfs, hf, huf])⟩
          rcases hc with hc | hc <;> rw [← ho, he] at hc <;> cases hc
    · rw [if_neg hcomp] at hres
      rcases hep : encodePhase cfg.hwaccel env 0 out_file fs0 with ⟨out2, fs3, tr2⟩
      rw [hep] at hres; dsimp only at hres
      simp only [Option.some.injEq, Prod.mk.injEq] at hres
      obtain ⟨ho, hfs, _⟩ := hres
      rcases encodePhase_files hep with ⟨he, hf⟩ | ⟨rcx, he, hf⟩
      · have : fs'.files = out_file :: fs.files := by rw [← hfs, hf, mF]
        exact ⟨fun _ => this, Or.inr this⟩
      · refine ⟨fun hc => ?_, Or.inl (by rw [← hfs, hf, mF])⟩
        rcases hc with hc | hc <;> rw [← ho, he] at hc <;> cases hc

theorem convert_one_some_mk {cfg : Config} {env : TaskEnv} {in_root in_file out_root : PathParts}
    {fs : FSState} {r : Outcome × FSState × List Attempt}
    (h : convert_one cfg env in_root in_file out_root fs = some r) :
    ∃ out_file fs0, make_output_path in_file in_root out_root fs = some (out_file, fs0) := by
  unfold convert_one at h
  cases hmk : make_output_path in_file in_root out_root fs with
  | none => rw [hmk] at h; cases h
  | some v => obtain ⟨a, b⟩ := v; exact ⟨a, b, rfl⟩

theorem convert_one_ne_none {cfg : Config} {env : TaskEnv} {in_root in_file out_root : PathParts}
    {fs : FSState} {out_file : PathParts} {fs0 : FSState}
    (hmk : make_output_path in_file in_root out_root fs = some (out_file, fs0)) :
    ∃ r, convert_one cfg env in_root in_file out_root fs = some r := by
  unfold convert_one
  rw [hmk]
  dsimp only
  repeat' split
  all_goals exact ⟨_, rfl⟩

theorem make_output_path_some_of_rel {in_file in_root : PathParts} {rel : PathParts}
    (h : relative_to in_file in_root = some rel) (out_root : PathParts) (fs : FSState) :
    make_output_path in_file in_root out_root fs =
      some ((out_root ++ [in_root.getLastD ""] ++ rel.dropLast) ++
              [base_with_suffix (pathStem (rel.getLastD "")) "_480p" ++ ".mkv"],
            { fs with dirs := (out_root ++ [in_root.getLastD ""] ++ rel.dropLast) :: fs.dirs }) := by
  unfold make_output_path
  rw [h]

theorem convert_one_skip {cfg : Config} {env : TaskEnv} {in_root in_file out_root : PathParts}
    {fs : FSState} {out_file : PathParts} {fs0 : FSState}
    (hov : cfg.overwrite = false)
    (hmk : make_output_path in_file in_root out_root fs = some (out_file, fs0))
    (hmem : out_file ∈ fs.files) :
    convert_one cfg env in_root in_file out_root fs = some (.existsSkip, fs0, []) := by
  have mF := (make_output_path_spec hmk).2.1
  unfold convert_one
  rw [hmk]
  dsimp only
  rw [if_pos ⟨by rw [mF]; exact hmem, hov⟩]

theorem convert_one_mono {cfg : Config} {env : TaskEnv} {in_root in_file out_root : PathParts}
    {fs : FSState} {out : Outcome} {fs' : FSState} {tr : List Attempt}
    (hres : convert_one cfg env in_root in_file out_root fs = some (out, fs', tr)) :
    ∀ p, p ∈ fs.files → p ∈ fs'.files := by
  obtain ⟨out_file, fs0, hmk⟩ := convert_one_some_mk hres
  intro p hp
  rcases (convert_one_files hmk hres).2 with hf | hf
  · rw [hf]; exact hp
  · rw [hf]; exact List.mem_cons_of_mem _ hp

theorem run_batch_mono (cfg : Config) (out_root : PathParts) :
    ∀ (ts : List VTask) (envs : Nat → TaskEnv) (fs fs1 : FSState) (rs : List BatchEntry),
      run_batch cfg envs out_root ts fs = (fs1, rs) → ∀ p, p ∈ fs.files → p ∈ fs1.files := by
  intro ts
  induction ts with
  | nil =>
      intro envs fs fs1 rs h p hp
      simp only [run_batch, Prod.mk.injEq] at h
      rw [← h.1]; exact hp
  | cons t ts ih =>
      intro envs fs fs1 rs h p hp
      rw [run_batch] at h
      cases hc : convert_one cfg (envs 0) t.in_root t.in_file out_root fs with
      | none =>
          rw [hc] at h
          rcases hrb : run_batch cfg (fun n => envs (n + 1)) out_root ts fs with ⟨fs2, rest⟩
          rw [hrb] at h
          dsimp only at h
          simp only [Prod.mk.injEq] at h
          rw [← h.1]
          exact ih _ _ _ _ hrb p hp
      | some v =>
          obtain ⟨o, fsA, tr⟩ := v
          rw [hc] at h
          dsimp only at h
          rcases hrb : run_batch cfg (fun n => envs (n + 1)) out_root ts fsA with ⟨fs2, rest⟩
          rw [hrb] at h
          dsimp only at h
          simp only [Prod.mk.injEq] at h
          rw [← h.1]
          exact ih _ _ _ _ hrb p (convert_one_mono hc p hp)

theorem run_batch_length (cfg : Config) (out_root : PathParts) :
    ∀ (ts : List VTask) (envs : Nat → TaskEnv) (fs : FSState),
      ((run_batch cfg envs out_root ts fs).2).length = ts.length := by
  intro ts
  induction ts with
  | nil => intro envs fs; simp [run_batch]
  | cons t ts ih =>
      intro envs fs
      rw [run_batch]
      cases hc : convert_one cfg (envs 0) t.in_root t.in_file out_root fs with
      | none =>
          rcases hrb : run_batch cfg (fun n => envs (n + 1)) out_root ts fs with ⟨fs2, rest⟩
          have := ih (fun n => envs (n + 1)) fs
          rw [hrb] at this
          simpa [hrb] using congrArg Nat.succ this
      | some v =>
          obtain ⟨o, fsA, tr⟩ := v
          rcases hrb : run_batch cfg (fun n => envs (n + 1)) out_root ts fsA with ⟨fs2, rest⟩
          have := ih (fun n => envs (n + 1)) fsA
          rw [hrb] at this
          simpa [hrb] using congrArg Nat.succ this

theorem run_batch_idem_aux (cfg : Config) (out_root : PathParts)
    (hov : cfg.overwrite = false) :
    ∀ (ts : List VTask) (envs envs' : Nat → TaskEnv) (fs fsE fs1 fs2 : FSState)
      (rs1 rs2 : List BatchEntry),
      run_batch cfg envs out_root ts fs = (fs1, rs1) →
      run_batch cfg envs' out_root ts fsE = (fs2, rs2) →
      (∀ p, p ∈ fs1.files → p ∈ fsE.files) →
      ∀ i o tr, rs1.get? i = some (.done o tr) → (o = .remuxed ∨ o = .encoded) →
        rs2.get? i = some (.done .existsSkip []) := by
  intro ts
  induction ts with
  | nil =>
      intro envs envs' fs fsE fs1 fs2 rs1 rs2 h1 h2 hsub i o tr hi ho
      simp only [run_batch, Prod.mk.injEq] at h1
      rw [← h1.2] at hi
      simp at hi
  | cons t ts ih =>
      intro envs envs' fs fsE fs1 fs2 rs1 rs2 h1 h2 hsub i o tr hi ho
      rw [run_batch] at h1 h2
      cases hc1 : convert_one cfg (envs 0) t.in_root t.in_file out_root fs with
      | none =>
          rw [hc1] at h1
          rcases hrb1 : run_batch cfg (fun n => envs (n + 1)) out_root ts fs with ⟨fsX, rest1⟩
          rw [hrb1] at h1
          dsimp only at h1
          simp only [Prod.mk.injEq] at h1
          obtain ⟨he1, he2⟩ := h1
          -- second run is also none: the path computation does not depend on the state
          cases hc2 : convert_one cfg (envs' 0) t.in_root t.in_file out_root fsE with
          | some v2 =>
              obtain ⟨oB, fsB, trB⟩ := v2
              exfalso
              obtain ⟨pf, fs0E, hmkE⟩ := convert_one_some_mk hc2
              have hrel : ∃ rel, relative_to t.in_file t.in_root = some rel := by
                unfold make_output_path at hmkE
                cases hr : relative_to t.in_file t.in_root with
                | none => rw [hr] at hmkE; cases hmkE
                | some rel => exact ⟨rel, rfl⟩
              obtain ⟨rel, hrel⟩ := hrel
              obtain ⟨r, hr⟩ :=
                @convert_one_ne_none cfg (envs 0) _ _ _ _ _ _
                  (make_output_path_some_of_rel hrel out_root fs)
              rw [hc1] at hr
              cases hr
          | none =>
              rw [hc2] at h2
              rcases hrb2 : run_batch cfg (fun n => envs' (n + 1)) out_root ts fsE with ⟨fsY, rest2⟩
              rw [hrb2] at h2
              dsimp only at h2
              simp only [Prod.mk.injEq] at h2
              obtain ⟨hf1, hf2⟩ := h2
              rw [← he2] at hi
              rw [← hf2]
              cases i with
              | zero => simp at hi
              | succ j =>
                  simp only [List.get?] at hi ⊢
                  have hsub' : ∀ p, p ∈ fs1.files → p ∈ fsE.files := hsub
                  rw [← he1] at hsub'
                  exact ih _ _ _ _ _ _ _ _ hrb1 hrb2 (by rw [he1]; exact hsub) j o tr hi ho
      | some v1 =>
          obtain ⟨oA, fsA, trA⟩ := v1
          rw [hc1] at h1
          dsimp only at h1
          rcases hrb1 : run_batch cfg (fun n => envs (n + 1)) out_root ts fsA with ⟨fsX, rest1⟩
          rw [hrb1] at h1
          dsimp only at h1
          simp only [Prod.mk.injEq] at h1
          obtain ⟨he1, he2⟩ := h1
          obtain ⟨out_file, fs0, hmk1⟩ := convert_one_some_mk hc1
          have hrel : ∃ rel, relative_to t.in_file t.in_root = some rel := by
            unfold make_output_path at hmk1
            cases hr : relative_to t.in_file t.in_root with
            | none => rw [hr] at hmk1; cases hmk1
            | some rel => exact ⟨rel, rfl⟩
          obtain ⟨rel, hrel⟩ := hrel
          have hmkE := make_output_path_some_of_rel hrel out_root fsE
          have hmkF := make_output_path_some_of_rel hrel out_root fs
          -- the computed output path is the same in both runs
          have hout : out_file = (out_root ++ [t.in_root.getLastD ""] ++ rel.dropLast) ++
              [base_with_suffix (pathStem (rel.getLastD "")) "_480p" ++ ".mkv"] := by
            rw [hmkF] at hmk1
            simp only [Option.some.injEq, Prod.mk.injEq] at hmk1
            exact hmk1.1.symm
          cases hc2 : convert_one cfg (envs' 0) t.in_root t.in_file out_root fsE with
          | none =>
              exfalso
              obtain ⟨r, hr⟩ :=
                @convert_one_ne_none cfg (envs' 0) _ _ _ _ _ _ hmkE
              rw [hc2] at hr
              cases hr
          | some v2 =>
              obtain ⟨oB, fsB, trB⟩ := v2
              rw [hc2] at h2
              dsimp only at h2
              rcases hrb2 : run_batch cfg (fun n => envs' (n + 1)) out_root ts fsB with ⟨fsY, rest2⟩
              rw [hrb2] at h2
              dsimp only at h2
              simp only [Prod.mk.injEq] at h2
              obtain ⟨hf1, hf2⟩ := h2
              rw [← he2] at hi
              rw [← hf2]
              cases i with
              | zero =>
                  simp only [List.get?, Option.some.injEq] at hi
                  cases hi
                  -- first run succeeded on this task: its destination is in fsA.files
                  have hdest : out_file ∈ fsA.files := by
                    rw [(convert_one_files hmk1 hc1).1 ho]
                    exact List.mem_cons_self _ _
                  have hdest1 : out_file ∈ fs1.files := by
                    rw [← he1]
                    exact run_batch_mono cfg out_root ts _ _ _ _ hrb1 _ hdest
                  have hdestE : out_file ∈ fsE.files := hsub _ hdest1
                  have hskipE := @convert_one_skip cfg (envs' 0) _ _ _ _ _ _ hov
                    (hout ▸ hmkE) hdestE
                  rw [hc2] at hskipE
                  simp only [Option.some.injEq, Prod.mk.injEq] at hskipE
                  obtain ⟨hb1, _, hb3⟩ := hskipE
                  simp [← hb1, ← hb3]
              | succ j =>
                  simp only [List.get?] at hi ⊢
                  refine ih _ _ _ _ _ _ _ _ hrb1 hrb2 ?_ j o tr hi ho
                  intro p hp
                  exact convert_one_mono hc2 p (hsub p (he1 ▸ hp))

theorem relative_to_append : ∀ (root rest : PathParts), relative_to (root ++ rest) root = some rest
  | [], rest => by simp [relative_to]
  | r :: rs, rest => by simp [relative_to, relative_to_append rs rest]

theorem getLastD_append_singleton (l : PathParts) (a d : String) : (l ++ [a]).getLastD d = a := by
  induction l with
  | nil => rfl
  | cons x xs ih =>
      cases xs with
      | nil => rfl
      | cons y ys => simp only [List.cons_append, List.getLastD]; exact ih

/-- C4: the compliance classifier returns true exactly when width and
height are present and within 854x480, the codec name contains "h264",
and the pixel format is an accepted 4:2:0 variant; any missing field
yields false. -/
theorem c4_classifier_iff (info : StreamInfo) :
    already_satisfies_480p info = true ↔ spec_compliant info := by
  have hsc : strContains (strLower "") "h264" = false := rfl
  have hy1 : strLower "" ≠ "yuv420p" := by decide
  have hy2 : strLower "" ≠ "yuvj420p" := by decide
  obtain ⟨w, h, pix, codec⟩ := info
  cases w <;> cases h <;> cases pix <;> cases codec <;>
    simp [already_satisfies_480p, spec_compliant, Option.getD, hsc, hy1, hy2, and_assoc]

/-- C8: the stream prober never throws: on every failing probe
observation (tool missing or failing, malformed output, no video
stream) it returns the empty profile; by construction `ffprobe_info` is
a total function, so no exception reaches the caller. -/
theorem c8_probe_never_throws (raw : ProbeRaw) (hf : probeFailed raw = true) :
    ffprobe_info raw = emptyInfo := by
  cases raw with
  | toolFailure => rfl
  | badOutput => rfl
  | parsed streams =>
      cases streams with
      | nil => rfl
      | cons s ss => simp [probeFailed] at hf

theorem c8_witness :
    probeFailed .badOutput = true ∧ ffprobe_info .badOutput = emptyInfo :=
  ⟨rfl, c8_probe_never_throws .badOutput rfl⟩

theorem dropLast_append_singleton (l : PathParts) (a : String) : (l ++ [a]).dropLast = l := by
  simp

/-- C9 counterexample: for a source file whose stem already ends in
"_480p" the produced name is not `<stem>_480p.mkv`: the suffix is not
appended a second time. -/
theorem c9_counterexample :
    (make_output_path ["r", "ep_480p.mkv"] ["r"] ["o"] ⟨[], [], []⟩).map Prod.fst =
      some ["o", "r", "ep_480p.mkv"] ∧
    (make_output_path ["r", "ep_480p.mkv"] ["r"] ["o"] ⟨[], [], []⟩).map Prod.fst ≠
      some ["o", "r", pathStem "ep_480p.mkv" ++ "_480p" ++ ".mkv"] := by
  constructor
  · decide
  · decide

/-- C9 (amended): the output path is the deterministic function
`<output_root>/<root_name>/<relative_dir>/<stem>_480p.mkv` of the task,
except that the `_480p` suffix is appended only when the stem does not
already end with it (`base_with_suffix`); the path does not depend on
the filesystem state, so the same task always yields the same path. -/
theorem c9_output_path (in_root out_root relp : PathParts) (name : String)
    (fs fs2 : FSState) :
    (make_output_path (in_root ++ (relp ++ [name])) in_root out_root fs).map Prod.fst =
      some (out_root ++ [in_root.getLastD ""] ++ relp ++
        [base_with_suffix (pathStem name) "_480p" ++ ".mkv"]) ∧
    (make_output_path (in_root ++ (relp ++ [name])) in_root out_root fs).map Prod.fst =
      (make_output_path (in_root ++ (relp ++ [name])) in_root out_root fs2).map Prod.fst := by
  refine ⟨?_, make_output_path_fst _ _ _ _ _⟩
  rw [make_output_path_some_of_rel (relative_to_append in_root (relp ++ [name])) out_root fs]
  simp [dropLast_append_singleton, getLastD_append_singleton]

theorem EncTrace_temps {hw : Option String} {t : String} {tr : List Attempt}
    (h : EncTrace hw t tr) : ∀ a ∈ tr, a.temp = t := by
  rcases h with ⟨rc, htr, _⟩ | htr | ⟨rc1, rc2, _, htr⟩ <;> subst htr <;> simp

theorem EncTrace_ne_nil {hw : Option String} {t : String} {tr : List Attempt}
    (h : EncTrace hw t tr) : tr ≠ [] := by
  rcases h with ⟨rc, htr, _⟩ | htr | ⟨rc1, rc2, _, htr⟩ <;> subst htr <;> simp

theorem EncTrace_counts {hw : Option String} {t : String} {tr : List Attempt}
    (h : EncTrace hw t tr) :
    countKind .encodeHW tr ≤ 1 ∧ countKind .encodeSW tr ≤ 1 ∧
      1 ≤ countKind .encodeHW tr + countKind .encodeSW tr ∧ countKind .remux tr = 0 := by
  rcases h with ⟨rc, htr, _⟩ | htr | ⟨rc1, rc2, _, htr⟩ <;> subst htr <;>
    simp [countKind, List.filter]

/-- C1: a temp artifact is never left behind by `convert_one`: the set
of temp files is restored on every exit path; for a successful outcome
(remuxed or encoded) the destination exists afterwards; for a failed
outcome the destination is absent and no temp artifact created by the
task remains. -/
theorem c1_no_temp_left {cfg : Config} {env : TaskEnv} {in_root in_file out_root : PathParts}
    {fs : FSState} {out_file : PathParts} {fs0 : FSState} {out : Outcome} {fs' : FSState}
    {tr : List Attempt}
    (hov : cfg.overwrite = false)
    (h0 : env.temps 0 ∉ fs.temps) (h1 : env.temps 1 ∉ fs.temps)
    (hmk : make_output_path in_file in_root out_root fs = some (out_file, fs0))
    (hres : convert_one cfg env in_root in_file out_root fs = some (out, fs', tr)) :
    fs'.temps = fs.temps ∧
    (∀ a ∈ tr, a.temp ∉ fs'.temps) ∧
    ((out = .remuxed ∨ out = .encoded) → out_file ∈ fs'.files) ∧
    (∀ rc, out = .error rc → out_file ∉ fs'.files) := by
  have mF := (make_output_path_spec hmk).2.1
  have mT := (make_output_path_spec hmk).1
  rcases convert_one_spec h0 h1 hmk hres with
    ⟨ho, hmem, hovr, hfs, htr⟩ |
    ⟨hskip, hT, hD, ⟨ho, htr, hF⟩ | ⟨rc0, tre, hrc0, htr, henc, hF⟩ | ⟨henc, hF⟩⟩
  · subst ho; subst hfs; subst htr
    refine ⟨mT, by simp, ?_, ?_⟩
    · rintro (hc | hc) <;> cases hc
    · intro rc hc; cases hc
  · subst ho; subst htr
    refine ⟨hT, ?_, fun _ => by rw [hF]; exact List.mem_cons_self _ _, ?_⟩
    · intro a ha
      simp only [List.mem_singleton] at ha
      subst ha
      rw [hT]
      exact h0
    · intro rc hc; cases hc
  · subst htr
    have hmemno : out_file ∉ fs0.files := fun hm => hskip ⟨hm, hov⟩
    refine ⟨hT, ?_, ?_, ?_⟩
    · intro a ha
      rw [hT]
      rcases List.mem_cons.1 ha with ha | ha
      · subst ha; exact h0
      · rw [EncTrace_temps henc a ha]; exact h1
    · intro hsucc
      rcases hF with ⟨_, hf⟩ | ⟨rc, hrc, hoe, hf⟩
      · rw [hf]; exact List.mem_cons_self _ _
      · subst hoe; rcases hsucc with hc | hc <;> cases hc
    · intro rc hc
      subst hc
      rcases hF with ⟨hoe, _⟩ | ⟨rc', hrc', hoe, hf⟩
      · cases hoe
      · rw [hf, mF]; rw [mF] at hmemno; exact hmemno
  · have hmemno : out_file ∉ fs0.files := fun hm => hskip ⟨hm, hov⟩
    refine ⟨hT, ?_, ?_, ?_⟩
    · intro a ha
      rw [hT]
      rw [EncTrace_temps henc a ha]
      exact h0
    · intro hsucc
      rcases hF with ⟨_, hf⟩ | ⟨rc, hrc, hoe, hf⟩
      · rw [hf]; exact List.mem_cons_self _ _
      · subst hoe; rcases hsucc with hc | hc <;> cases hc
    · intro rc hc
      subst hc
      rcases hF with ⟨hoe, _⟩ | ⟨rc', hrc', hoe, hf⟩
      · cases hoe
      · rw [hf, mF]; rw [mF] at hmemno; exact hmemno

theorem c1_witness :
    ([] : List String) = ([] : List String) ∧
    (∀ a ∈ [Attempt.mk .encodeSW "t0" 0], a.temp ∉ ([] : List String)) ∧
    ((Outcome.encoded = .remuxed ∨ Outcome.encoded = .encoded) →
      ["o", "r", "a_480p.mkv"] ∈ [["o", "r", "a_480p.mkv"]]) ∧
    (∀ rc, Outcome.encoded = .error rc → ["o", "r", "a_480p.mkv"] ∉ [["o", "r", "a_480p.mkv"]]) :=
  @c1_no_temp_left ⟨false, true, none⟩
    ⟨fun n => "t" ++ toString n, fun _ => (.exited 0, true), .toolFailure⟩
    ["r"] ["r", "a.mkv"] ["o"] ⟨[], [], []⟩ _ _ _ _ _
    rfl (by decide) (by decide) rfl rfl

/-- C10: computing the output path creates the destination directory as
a side effect: after any completed `convert_one` call the directory
`<output_root>/<root_name>/<relative_dir>` has been added to the
filesystem state, even when the task terminates as skipped-exists
having run no external process. -/
theorem c10_mkdir_side_effect {cfg : Config} {env : TaskEnv}
    {in_root in_file out_root : PathParts} {fs : FSState} {out_file : PathParts}
    {fs0 : FSState} {out : Outcome} {fs' : FSState} {tr : List Attempt}
    (h0 : env.temps 0 ∉ fs.temps) (h1 : env.temps 1 ∉ fs.temps)
    (hmk : make_output_path in_file in_root out_root fs = some (out_file, fs0))
    (hres : convert_one cfg env in_root in_file out_root fs = some (out, fs', tr)) :
    ∃ rel, relative_to in_file in_root = some rel ∧
      fs'.dirs = (out_root ++ [in_root.getLastD ""] ++ rel.dropLast) :: fs.dirs ∧
      (out = .existsSkip → tr = []) := by
  obtain ⟨mT, mF, rel, hrel, mD, mP⟩ := make_output_path_spec hmk
  rcases convert_one_spec h0 h1 hmk hres with
    ⟨ho, hmem, hovr, hfs, htr⟩ |
    ⟨hskip, hT, hD, ⟨ho, htr, hF⟩ | ⟨rc0, tre, hrc0, htr, henc, hF⟩ | ⟨henc, hF⟩⟩
  · subst hfs
    exact ⟨rel, hrel, mD, fun _ => htr⟩
  · subst ho
    exact ⟨rel, hrel, by rw [hD, mD], fun hc => by cases hc⟩
  · refine ⟨rel, hrel, by rw [hD, mD], fun hc => ?_⟩
    subst hc
    rcases hF with ⟨hoe, _⟩ | ⟨rc', _, hoe, _⟩ <;> cases hoe
  · refine ⟨rel, hrel, by rw [hD, mD], fun hc => ?_⟩
    subst hc
    rcases hF with ⟨hoe, _⟩ | ⟨rc', _, hoe, _⟩ <;> cases hoe

theorem c10_witness :
    ∃ rel, relative_to ["r", "a.mkv"] ["r"] = some rel ∧
      (FSState.mk [["o", "r", "a_480p.mkv"]] [["o", "r"]] []).dirs =
        (["o"] ++ [(["r"] : PathParts).getLastD ""] ++ rel.dropLast) :: ([] : List PathParts) ∧
      (Outcome.existsSkip = .existsSkip → ([] : List Attempt) = []) :=
  @c10_mkdir_side_effect ⟨false, true, none⟩
    ⟨fun n => "t" ++ toString n, fun _ => (.exited 0, true), .toolFailure⟩
    ["r"] ["r", "a.mkv"] ["o"] ⟨[["o", "r", "a_480p.mkv"]], [], []⟩ _ _ _ _ _
    (by decide) (by decide) rfl rfl

theorem EncTrace_kind_not_remux {hw : Option String} {t : String} {tr : List Attempt}
    (h : EncTrace hw t tr) : ∀ a ∈ tr, a.kind ≠ .remux := by
  intro a ha hk
  rcases h with ⟨rc, htr, _⟩ | htr | ⟨rc1, rc2, _, htr⟩ <;> subst htr <;>
    simp only [List.mem_cons, List.not_mem_nil, or_false] at ha
  · subst ha; cases hk
  · subst ha; cases hk
  · rcases ha with ha | ha <;> subst ha <;> cases hk

/-- C2 counterexample: with a detected hwaccel, a compliant source whose
remux fails and whose hardware encode also fails sees two encode
invocations follow the failed remux, not exactly one. -/
theorem c2_counterexample :
    ¬ (∀ out fs' tr, convert_one ⟨false, true, some "vaapi"⟩
        ⟨fun n => "t" ++ toString n,
          fun k => if k = 0 then (.exited 1, false) else
            if k = 1 then (.exited 1, true) else (.exited 0, true),
          .parsed [⟨some 640, some 360, some "yuv420p", some "h264"⟩]⟩
        ["r"] ["r", "b.mkv"] ["o"] ⟨[], [], []⟩ = some (out, fs', tr) →
        encodesAfterFailedRemux tr = none ∨ encodesAfterFailedRemux tr = some 1) := by
  intro hclaim
  exact absurd (hclaim _ _ _ rfl) (by decide)

/-- C2 (amended): when a remux is attempted and fails, at least one and
at most two encode invocations follow it, and never two of the same
kind (two occur exactly when the first, hardware-accelerated one fails
and the software fallback runs). -/
theorem c2_encode_follows_failed_remux {cfg : Config} {env : TaskEnv}
    {in_root in_file out_root : PathParts} {fs : FSState} {out : Outcome} {fs' : FSState}
    {tr : List Attempt} {t : String} {rc : Int} {rest : List Attempt}
    (h0 : env.temps 0 ∉ fs.temps) (h1 : env.temps 1 ∉ fs.temps)
    (hres : convert_one cfg env in_root in_file out_root fs = some (out, fs', tr))
    (htr : tr = ⟨.remux, t, rc⟩ :: rest) (hrc : rc ≠ 0) :
    1 ≤ countKind .encodeHW rest + countKind .encodeSW rest ∧
    countKind .encodeHW rest ≤ 1 ∧ countKind .encodeSW rest ≤ 1 := by
  obtain ⟨out_file, fs0, hmk⟩ := convert_one_some_mk hres
  rcases convert_one_spec h0 h1 hmk hres with
    ⟨ho, hmem, hovr, hfs, htr'⟩ |
    ⟨hskip, hT, hD, ⟨ho, htr', hF⟩ | ⟨rc0, tre, hrc0, htr', henc, hF⟩ | ⟨henc, hF⟩⟩
  · rw [htr'] at htr; cases htr
  · rw [htr'] at htr
    simp only [List.cons.injEq, Attempt.mk.injEq] at htr
    exact absurd htr.1.2.2.symm hrc
  · rw [htr'] at htr
    simp only [List.cons.injEq, Attempt.mk.injEq] at htr
    obtain ⟨_, hrest⟩ := htr
    obtain ⟨chw, csw, hge, _⟩ := EncTrace_counts henc
    subst hrest
    exact ⟨hge, chw, csw⟩
  · exfalso
    exact EncTrace_kind_not_remux henc (⟨.remux, t, rc⟩ : Attempt)
      (htr ▸ List.mem_cons_self _ _) rfl

theorem c2_witness :
    1 ≤ countKind .encodeHW [Attempt.mk .encodeSW "t1" 1] +
        countKind .encodeSW [Attempt.mk .encodeSW "t1" 1] ∧
    countKind .encodeHW [Attempt.mk .encodeSW "t1" 1] ≤ 1 ∧
    countKind .encodeSW [Attempt.mk .encodeSW "t1" 1] ≤ 1 :=
  @c2_encode_follows_failed_remux ⟨false, true, none⟩
    ⟨fun n => "t" ++ toString n, fun _ => (.exited 1, true),
      .parsed [⟨some 640, some 360, some "yuv420p", some "h264"⟩]⟩
    ["r"] ["r", "b.mkv"] ["o"] ⟨[], [], []⟩ _ _ _ _ _ _
    (by decide) (by decide) rfl rfl (by decide)

/-- C3 counterexample: when the hardware encode fails, the software
fallback rewrites into the same temp path the failed attempt used, so a
failed attempt's temp path is reused within the task. -/
theorem c3_counterexample :
    ¬ (∀ out fs' tr, convert_one ⟨false, true, some "cuda"⟩
        ⟨fun n => "t" ++ toString n,
          fun k => if k = 0 then (.exited 1, true) else (.exited 0, true), .toolFailure⟩
        ["r"] ["r", "c.mkv"] ["o"] ⟨[], [], []⟩ = some (out, fs', tr) →
        tempReused tr = false) := by
  intro hclaim
  exact absurd (hclaim _ _ _ rfl) (by decide)

/-- C3 (amended): the remux attempt and the full-encode phase each
allocate a fresh uniquely-named temp path (not present beforehand, and
the remux temp is never reused by an encode attempt), but the software
fallback after a failed hardware attempt reuses the hardware attempt's
temp path after deleting the failed file. -/
theorem c3_temp_allocation {cfg : Config} {env : TaskEnv}
    {in_root in_file out_root : PathParts} {fs : FSState} {out : Outcome} {fs' : FSState}
    {tr : List Attempt}
    (h0 : env.temps 0 ∉ fs.temps) (h1 : env.temps 1 ∉ fs.temps)
    (hne : env.temps 0 ≠ env.temps 1)
    (hres : convert_one cfg env in_root in_file out_root fs = some (out, fs', tr)) :
    (∀ a ∈ tr, a.temp ∉ fs.temps) ∧
    (∀ a ∈ tr, a.kind = .remux → ∀ b ∈ tr, b.kind ≠ .remux → b.temp ≠ a.temp) ∧
    (∀ a ∈ tr, ∀ b ∈ tr, a.kind = .encodeHW → b.kind = .encodeSW → a.temp = b.temp) := by
  obtain ⟨out_file, fs0, hmk⟩ := convert_one_some_mk hres
  rcases convert_one_spec h0 h1 hmk hres with
    ⟨ho, hmem, hovr, hfs, htr⟩ |
    ⟨hskip, hT, hD, ⟨ho, htr, hF⟩ | ⟨rc0, tre, hrc0, htr, henc, hF⟩ | ⟨henc, hF⟩⟩
  · subst htr
    exact ⟨by simp, by simp, by simp⟩
  · subst htr
    refine ⟨?_, ?_, ?_⟩
    · intro a ha
      simp only [List.mem_cons, List.not_mem_nil, or_false] at ha
      subst ha; exact h0
    · intro a ha hak b hb hbk
      simp only [List.mem_cons, List.not_mem_nil, or_false] at hb
      subst hb; exact absurd rfl hbk
    · intro a ha b hb hak hbk
      simp only [List.mem_cons, List.not_mem_nil, or_false] at ha
      subst ha; cases hak
  · subst htr
    refine ⟨?_, ?_, ?_⟩
    · intro a ha
      rcases List.mem_cons.1 ha with ha | ha
      · subst ha; exact h0
      · rw [EncTrace_temps henc a ha]; exact h1
    · intro a ha hak b hb hbk hteq
      rcases List.mem_cons.1 hb with hb | hb
      · subst hb; exact absurd rfl hbk
      · rcases List.mem_cons.1 ha with ha | ha
        · subst ha
          rw [EncTrace_temps henc b hb] at hteq
          exact hne hteq.symm
        · exact absurd hak (EncTrace_kind_not_remux henc a ha)
    · intro a ha b hb hak hbk
      rcases List.mem_cons.1 ha with ha | ha
      · subst ha; cases hak
      · rcases List.mem_cons.1 hb with hb | hb
        · subst hb; cases hbk
        · rw [EncTrace_temps henc a ha, EncTrace_temps henc b hb]
  · refine ⟨?_, ?_, ?_⟩
    · intro a ha
      rw [EncTrace_temps henc a ha]; exact h0
    · intro a ha hak
      exact absurd hak (EncTrace_kind_not_remux henc a ha)
    · intro a ha b hb hak hbk
      rw [EncTrace_temps henc a ha, EncTrace_temps henc b hb]

theorem c3_witness :
    (∀ a ∈ [Attempt.mk .remux "t0" 1, Attempt.mk .encodeSW "t1" 1],
      a.temp ∉ ([] : List String)) ∧
    (∀ a ∈ [Attempt.mk .remux "t0" 1, Attempt.mk .encodeSW "t1" 1], a.kind = .remux →
      ∀ b ∈ [Attempt.mk .remux "t0" 1, Attempt.mk .encodeSW "t1" 1], b.kind ≠ .remux →
        b.temp ≠ a.temp) ∧
    (∀ a ∈ [Attempt.mk .remux "t0" 1, Attempt.mk .encodeSW "t1" 1],
      ∀ b ∈ [Attempt.mk .remux "t0" 1, Attempt.mk .encodeSW "t1" 1],
        a.kind = .encodeHW → b.kind = .encodeSW → a.temp = b.temp) :=
  @c3_temp_allocation ⟨false, true, none⟩
    ⟨fun n => "t" ++ toString n, fun _ => (.exited 1, true),
      .parsed [⟨some 640, some 360, some "yuv420p", some "h264"⟩]⟩
    ["r"] ["r", "b.mkv"] ["o"] ⟨[], [], []⟩ _ _ _
    (by decide) (by decide) (by decide) rfl

/-- C7 counterexample: a cancellation during an invocation is mapped by
`run_cmd` to 130, the same value as an engine exit with code 130, so the
failure status is not distinct; after a cancelled remux the task goes on
to a fallback encode attempt instead of aborting; and the batch driver
processes the remaining tasks after a task whose invocations were all
cancelled. -/
theorem c7_counterexample :
    runCmd .interrupted = runCmd (.exited 130) ∧
    ¬ (∀ out fs' tr, convert_one ⟨false, true, none⟩
        ⟨fun n => "t" ++ toString n, fun _ => (.interrupted, false),
          .parsed [⟨some 640, some 360, some "yuv420p", some "h264"⟩]⟩
        ["r"] ["r", "d.mkv"] ["o"] ⟨[], [], []⟩ = some (out, fs', tr) →
        tr.length ≤ 1) ∧
    ((run_batch ⟨false, true, none⟩
        (fun _ => ⟨fun n => "t" ++ toString n, fun _ => (.interrupted, false), .toolFailure⟩)
        ["o"] [⟨["r"], ["r", "d.mkv"]⟩, ⟨["r"], ["r", "e.mkv"]⟩] ⟨[], [], []⟩).2).length = 2 := by
  refine ⟨rfl, ?_, rfl⟩
  intro hclaim
  exact absurd (hclaim _ _ _ rfl) (by decide)

/-- C7 (amended): `run_cmd` terminates the child on a cancellation and
returns 130, a value indistinguishable from an engine exit code of 130;
the task then continues through its normal fallback handling (a failed
cancelled remux is still followed by at least one encode attempt), and
the driver loop processes one entry for every task regardless of
outcomes, so a cancellation inside an invocation does not abort the
remaining batch. -/
theorem c7_cancellation_conflated :
    (∀ ev, runCmd ev = 130 ↔ (ev = .interrupted ∨ ev = .exited 130)) ∧
    (∀ (cfg : Config) (env : TaskEnv) (in_root in_file out_root : PathParts) (fs : FSState)
        (out : Outcome) (fs' : FSState) (tr : List Attempt) (t : String)
        (rest : List Attempt),
      env.temps 0 ∉ fs.temps → env.temps 1 ∉ fs.temps →
      convert_one cfg env in_root in_file out_root fs = some (out, fs', tr) →
      tr = ⟨.remux, t, 130⟩ :: rest → rest ≠ []) ∧
    (∀ (cfg : Config) (envs : Nat → TaskEnv) (out_root : PathParts) (ts : List VTask)
        (fs : FSState), ((run_batch cfg envs out_root ts fs).2).length = ts.length) := by
  refine ⟨?_, ?_, fun cfg envs out_root ts fs => run_batch_length cfg out_root ts envs fs⟩
  · intro ev
    cases ev with
    | exited rc => simp [runCmd]
    | interrupted => simp [runCmd]
    | spawnError => simp [runCmd]
  · intro cfg env in_root in_file out_root fs out fs' tr t rest h0 h1 hres htr
    obtain ⟨out_file, fs0, hmk⟩ := convert_one_some_mk hres
    rcases convert_one_spec h0 h1 hmk hres with
      ⟨ho, hmem, hovr, hfs, htr'⟩ |
      ⟨hskip, hT, hD, ⟨ho, htr', hF⟩ | ⟨rc0, tre, hrc0, htr', henc, hF⟩ | ⟨henc, hF⟩⟩
    · rw [htr'] at htr; cases htr
    · rw [htr'] at htr
      simp only [List.cons.injEq, Attempt.mk.injEq] at htr
      exact absurd htr.1.2.2.symm (by decide)
    · rw [htr'] at htr
      simp only [List.cons.injEq, Attempt.mk.injEq] at htr
      rw [← htr.2]
      exact EncTrace_ne_nil henc
    · exact absurd (EncTrace_kind_not_remux henc (⟨.remux, t, 130⟩ : Attempt)
        (htr ▸ List.mem_cons_self _ _)) (by simp)

theorem c7_witness :
    (runCmd .interrupted = 130 ↔
      (RunEvent.interrupted = .interrupted ∨ RunEvent.interrupted = .exited 130)) ∧
    ([Attempt.mk .encodeSW "t1" 130] ≠ ([] : List Attempt)) :=
  ⟨c7_cancellation_conflated.1 .interrupted,
    c7_cancellation_conflated.2.1 ⟨false, true, none⟩
      ⟨fun n => "t" ++ toString n, fun _ => (.interrupted, false),
        .parsed [⟨some 640, some 360, some "yuv420p", some "h264"⟩]⟩
      ["r"] ["r", "d.mkv"] ["o"] ⟨[], [], []⟩ _ _ _ "t0" [Attempt.mk .encodeSW "t1" 130]
      (by decide) (by decide) rfl rfl⟩

/-- C5: with overwrite disabled, a task whose destination already exists
returns skipped-exists immediately with an empty invocation trace (no
external process is spawned); consequently, running the batch a second
time with overwrite disabled yields skipped-exists (again with no
invocation) for every task that remuxed or encoded successfully in the
first run. -/
theorem c5_skip_and_idempotent (cfg : Config) (hov : cfg.overwrite = false) :
    (∀ (env : TaskEnv) (in_root in_file out_root : PathParts) (fs : FSState)
        (out_file : PathParts) (fs0 : FSState),
      make_output_path in_file in_root out_root fs = some (out_file, fs0) →
      out_file ∈ fs.files →
      convert_one cfg env in_root in_file out_root fs = some (.existsSkip, fs0, [])) ∧
    (∀ (envs envs2 : Nat → TaskEnv) (out_root : PathParts) (ts : List VTask)
        (fs fs1 fs2 : FSState) (rs1 rs2 : List BatchEntry),
      run_batch cfg envs out_root ts fs = (fs1, rs1) →
      run_batch cfg envs2 out_root ts fs1 = (fs2, rs2) →
      ∀ i o tr, rs1.get? i = some (.done o tr) → (o = .remuxed ∨ o = .encoded) →
        rs2.get? i = some (.done .existsSkip [])) :=
  ⟨fun _ _ _ _ _ _ _ hmk hmem => convert_one_skip hov hmk hmem,
    fun envs envs2 out_root ts fs fs1 fs2 rs1 rs2 h1 h2 =>
      run_batch_idem_aux cfg out_root hov ts envs envs2 fs fs1 fs1 fs2 rs1 rs2 h1 h2
        (fun _ hp => hp)⟩

theorem c5_witness :
    run_batch ⟨false, true, none⟩
        (fun _ => ⟨fun n => "t" ++ toString n, fun _ => (.exited 0, true), .toolFailure⟩)
        ["o"] [⟨["r"], ["r", "a.mkv"]⟩] ⟨[], [], []⟩ =
      (⟨[["o", "r", "a_480p.mkv"]], [["o", "r"]], []⟩,
        [.done .encoded [Attempt.mk .encodeSW "t0" 0]]) ∧
    ([BatchEntry.done .existsSkip []].get? 0 = some (.done .existsSkip [])) :=
  ⟨rfl,
    (c5_skip_and_idempotent ⟨false, true, none⟩ rfl).2
      (fun _ => ⟨fun n => "t" ++ toString n, fun _ => (.exited 0, true), .toolFailure⟩)
      (fun _ => ⟨fun n => "t" ++ toString n, fun _ => (.exited 0, true), .toolFailure⟩)
      ["o"] [⟨["r"], ["r", "a.mkv"]⟩] ⟨[], [], []⟩
      ⟨[["o", "r", "a_480p.mkv"]], [["o", "r"]], []⟩ _ _ _ rfl rfl
      0 .encoded [Attempt.mk .encodeSW "t0" 0] rfl (Or.inr rfl)⟩

/-- C6: the encode command's scale filter (the `-vf` string of
`build_ffmpeg_command`, whose expressions are rendered by `FExpr.render`
and evaluated by the engine per `FExpr.eval`) scales to output width
`2*floor(iw*scale/2)` and height `2*floor(ih*scale/2)` with
`scale = min(854/iw, 480/ih)`; both outputs are even, fit in the
854x480 box, and never exceed the aspect-preserving uniform scaling of
the source. -/
theorem c6_scaling (iw ih : ℤ) (hw : 0 < iw) (hh : 0 < ih) :
    vf_chain = "scale=" ++ FExpr.render exprW ++ ":" ++ FExpr.render exprH ++ ",setsar=1" ∧
    FExpr.eval (iw : ℚ) (ih : ℚ) exprW =
      ((2 * ⌊(iw : ℚ) * scaleQ (iw : ℚ) (ih : ℚ) / 2⌋ : ℤ) : ℚ) ∧
    FExpr.eval (iw : ℚ) (ih : ℚ) exprH =
      ((2 * ⌊(ih : ℚ) * scaleQ (iw : ℚ) (ih : ℚ) / 2⌋ : ℤ) : ℚ) ∧
    (∃ a : ℤ, FExpr.eval (iw : ℚ) (ih : ℚ) exprW = ((2 * a : ℤ) : ℚ)) ∧
    (∃ b : ℤ, FExpr.eval (iw : ℚ) (ih : ℚ) exprH = ((2 * b : ℤ) : ℚ)) ∧
    FExpr.eval (iw : ℚ) (ih : ℚ) exprW ≤ 854 ∧
    FExpr.eval (iw : ℚ) (ih : ℚ) exprH ≤ 480 ∧
    FExpr.eval (iw : ℚ) (ih : ℚ) exprW ≤ (iw : ℚ) * scaleQ (iw : ℚ) (ih : ℚ) ∧
    FExpr.eval (iw : ℚ) (ih : ℚ) exprH ≤ (ih : ℚ) * scaleQ (iw : ℚ) (ih : ℚ) ∧
    vf_chain ∈ build_ffmpeg_command "in.mkv" "out.mkv" none := by
  have hiw : (0 : ℚ) < (iw : ℚ) := by exact_mod_cast hw
  have hih : (0 : ℚ) < (ih : ℚ) := by exact_mod_cast hh
  have hs : 0 < scaleQ (iw : ℚ) (ih : ℚ) :=
    lt_min (div_pos (by norm_num) hiw) (div_pos (by norm_num) hih)
  have hxw : (0 : ℚ) ≤ (iw : ℚ) * scaleQ (iw : ℚ) (ih : ℚ) / 2 :=
    div_nonneg (mul_nonneg hiw.le hs.le) (by norm_num)
  have hxh : (0 : ℚ) ≤ (ih : ℚ) * scaleQ (iw : ℚ) (ih : ℚ) / 2 :=
    div_nonneg (mul_nonneg hih.le hs.le) (by norm_num)
  have evW : FExpr.eval (iw : ℚ) (ih : ℚ) exprW =
      (truncQ ((iw : ℚ) * scaleQ (iw : ℚ) (ih : ℚ) / 2) : ℚ) * 2 := by
    simp [FExpr.eval, exprW, exprScale, scaleQ, Nat.cast_ofNat]
  have evH : FExpr.eval (iw : ℚ) (ih : ℚ) exprH =
      (truncQ ((ih : ℚ) * scaleQ (iw : ℚ) (ih : ℚ) / 2) : ℚ) * 2 := by
    simp [FExpr.eval, exprH, exprScale, scaleQ, Nat.cast_ofNat]
  have htrW : truncQ ((iw : ℚ) * scaleQ (iw : ℚ) (ih : ℚ) / 2) =
      ⌊(iw : ℚ) * scaleQ (iw : ℚ) (ih : ℚ) / 2⌋ := by
    unfold truncQ; rw [if_neg (not_lt.2 hxw)]
  have htrH : truncQ ((ih : ℚ) * scaleQ (iw : ℚ) (ih : ℚ) / 2) =
      ⌊(ih : ℚ) * scaleQ (iw : ℚ) (ih : ℚ) / 2⌋ := by
    unfold truncQ; rw [if_neg (not_lt.2 hxh)]
  have hWeq : FExpr.eval (iw : ℚ) (ih : ℚ) exprW =
      ((2 * ⌊(iw : ℚ) * scaleQ (iw : ℚ) (ih : ℚ) / 2⌋ : ℤ) : ℚ) := by
    rw [evW, htrW]; push_cast; ring
  have hHeq : FExpr.eval (iw : ℚ) (ih : ℚ) exprH =
      ((2 * ⌊(ih : ℚ) * scaleQ (iw : ℚ) (ih : ℚ) / 2⌋ : ℤ) : ℚ) := by
    rw [evH, htrH]; push_cast; ring
  have hflW : (⌊(iw : ℚ) * scaleQ (iw : ℚ) (ih : ℚ) / 2⌋ : ℚ) ≤
      (iw : ℚ) * scaleQ (iw : ℚ) (ih : ℚ) / 2 := Int.floor_le _
  have hflH : (⌊(ih : ℚ) * scaleQ (iw : ℚ) (ih : ℚ) / 2⌋ : ℚ) ≤
      (ih : ℚ) * scaleQ (iw : ℚ) (ih : ℚ) / 2 := Int.floor_le _
  have h854 : (iw : ℚ) * scaleQ (iw : ℚ) (ih : ℚ) ≤ 854 := by
    calc (iw : ℚ) * scaleQ (iw : ℚ) (ih : ℚ) ≤ (iw : ℚ) * (854 / (iw : ℚ)) :=
          mul_le_mul_of_nonneg_left (min_le_left _ _) hiw.le
      _ = 854 := by field_simp
  have h480 : (ih : ℚ) * scaleQ (iw : ℚ) (ih : ℚ) ≤ 480 := by
    calc (ih : ℚ) * scaleQ (iw : ℚ) (ih : ℚ) ≤ (ih : ℚ) * (480 / (ih : ℚ)) :=
          mul_le_mul_of_nonneg_left (min_le_right _ _) hih.le
      _ = 480 := by field_simp
  refine ⟨rfl, hWeq, hHeq, ⟨_, hWeq⟩, ⟨_, hHeq⟩, ?_, ?_, ?_, ?_, ?_⟩
  · rw [hWeq]; push_cast; linarith
  · rw [hHeq]; push_cast; linarith
  · rw [hWeq]; push_cast; linarith
  · rw [hHeq]; push_cast; linarith
  · simp [build_ffmpeg_command, TUNE_ANIMATION, COPY_ATTACHMENTS, OVERWRITE]

theorem c6_witness :
    (0 : ℤ) < 1920 ∧ (0 : ℤ) < 1080 ∧
    FExpr.eval ((1920 : ℤ) : ℚ) ((1080 : ℤ) : ℚ) exprW ≤ 854 ∧
    FExpr.eval ((1920 : ℤ) : ℚ) ((1080 : ℤ) : ℚ) exprH ≤ 480 :=
  ⟨by decide, by decide,
    (c6_scaling 1920 1080 (by decide) (by decide)).2.2.2.2.2.1,
    (c6_scaling 1920 1080 (by decide) (by decide)).2.2.2.2.2.2.1⟩
